import Mathlib

/-!
Verification of the threaded key-value store server (`src/server.c`).

The development shallowly embeds the sequential behaviour of `handle_client`:

* `scanTokens` models `sscanf(buffer, "%31s %255s %255s", cmd, key, value)`:
  for each field width it skips whitespace, reads at most `w` bytes of the
  current non-whitespace run, and stops at the first failed conversion.
  Note the field widths: 31 for the command token, 255 for key and value,
  and that a run longer than the width is split, the excess being scanned
  as the start of the next token (exactly as `sscanf` behaves).
* `kvSet`, `kvGet`, `kvDelete` model the uthash-backed store:
  `HASH_FIND_STR` + in-place value update / `HASH_ADD_STR` append,
  with `strncpy` truncation to 255 bytes (`sizeof(entry->key) - 1`).
* `decode` / `applyCmd` / `handleRequest` model the command dispatch
  if/else chain of `handle_client`, including the `"OK"`, `"NOT_FOUND"`
  and `"ERROR"` responses.

Strings are `List Char`; the store is an association list mirroring the
uthash table (at most one live entry per key in every reachable state,
which is proved below as the store invariant).
-/

namespace ThreadedKV

/-- The whitespace characters recognised by `sscanf`/`isspace` in the C locale. -/
def isWhite (c : Char) : Bool :=
  c == ' ' || c == '\t' || c == '\n' || c == '\r' || c == '\x0b' || c == '\x0c'

abbrev Str := List Char

/-- Model of `sscanf(buffer, "%31s %255s %255s", ...)` for an arbitrary list
of field widths: skip whitespace, take at most `w` characters of the
non-whitespace run, stop at the first failed conversion.  Returns the list of
successfully converted tokens (so `parsed` in the C code is the length of the
result, with the empty list corresponding to `EOF`). -/
def scanTokens : List Nat → List Char → List Str
  | [], _ => []
  | w :: ws, s =>
    let s1 := s.dropWhile isWhite
    let tok := (s1.takeWhile (fun c => !isWhite c)).take w
    if tok = [] then [] else tok :: scanTokens ws (s1.drop tok.length)

/-- The field widths of the `sscanf` format `"%31s %255s %255s"`. -/
def widths : List Nat := [31, 255, 255]

/-- The store: the uthash table `kv_store`, as an association list of
(key, value) entries. -/
abbrev Store := List (Str × Str)

/-- The SET branch of `handle_client`: `HASH_FIND_STR`; if found, the entry's
value is overwritten in place (`strncpy` bounded by `sizeof(entry->value)-1 =
255`); otherwise a fresh entry is appended with key and value both truncated
to 255 bytes by `strncpy`. -/
def kvSet : Store → Str → Str → Store
  | [], k, v => [(k.take 255, v.take 255)]
  | e :: rest, k, v =>
    if e.1 = k then (e.1, v.take 255) :: rest else e :: kvSet rest k v

/-- The lookup `HASH_FIND_STR(kv_store, key, entry)`: the first entry whose
key equals `k`, if any. -/
def kvGet : Store → Str → Option Str
  | [], _ => none
  | e :: rest, k => if e.1 = k then some e.2 else kvGet rest k

/-- The DELETE branch of `handle_client`: `HASH_FIND_STR` followed by
`HASH_DEL` + `free` of the found entry, a no-op when the key is absent. -/
def kvDelete : Store → Str → Store
  | [], _ => []
  | e :: rest, k => if e.1 = k then rest else e :: kvDelete rest k

/-- The decoded command, as dispatched by the if/else chain. -/
inductive Command where
  | set : Str → Str → Command
  | get : Str → Command
  | del : Str → Command
deriving DecidableEq

/-- The response literals written back to the client. -/
def okResp : Str := "OK".toList

def notFoundResp : Str := "NOT_FOUND".toList

def errorResp : Str := "ERROR".toList

/-- The guard conditions of `handle_client`'s dispatch chain, applied to the
token list produced by `sscanf`: `SET` requires `parsed >= 3`, `GET` and
`DELETE` require `parsed >= 2`; anything else (including too few tokens for
the command, or no tokens at all) is invalid. -/
def decode : List Str → Option Command
  | c :: k :: v :: _ =>
    if c = "SET".toList then some (.set k v)
    else if c = "GET".toList then some (.get k)
    else if c = "DELETE".toList then some (.del k)
    else none
  | [c, k] =>
    if c = "GET".toList then some (.get k)
    else if c = "DELETE".toList then some (.del k)
    else none
  | _ => none

/-- The body of a dispatched command: the store mutation together with the
response.  The GET response copies the found value through
`strncpy(response, entry->value, sizeof(response) - 1)`, hence the
truncation to 1023 bytes. -/
def applyCmd (st : Store) : Command → Store × Str
  | .set k v => (kvSet st k v, okResp)
  | .get k =>
    (st, match kvGet st k with
         | some v => v.take 1023
         | none => notFoundResp)
  | .del k => (kvDelete st k, okResp)

/-- One full request handled by `handle_client` after a successful read:
tokenize, dispatch, and answer `"ERROR"` when no guard matches. -/
def handleRequest (st : Store) (input : Str) : Store × Str :=
  match decode (scanTokens widths input) with
  | some c => applyCmd st c
  | none => (st, errorResp)

/-- A whole sequence of requests, each on its own connection, processed
serially against the shared store. -/
def processAll (reqs : List Str) (st : Store) : Store :=
  reqs.foldl (fun s r => (handleRequest s r).1) st

/-- At most one record per key: the keys of the table are pairwise distinct. -/
def NodupKeys (st : Store) : Prop := (st.map Prod.fst).Nodup

/-- Every stored key and value fits the 255-byte bound of the fixed
`char[256]` fields of `kv_entry_t`. -/
def BoundedEntries (st : Store) : Prop :=
  ∀ e ∈ st, e.1.length ≤ 255 ∧ e.2.length ≤ 255

/-- The store invariant of the spec's data model. -/
def Invariant (st : Store) : Prop := NodupKeys st ∧ BoundedEntries st

/-! ### Basic store lemmas -/

theorem kvGet_kvSet_self (st : Store) (k v : Str)
    (hk : k.length ≤ 255) (hv : v.length ≤ 255) :
    kvGet (kvSet st k v) k = some v := by
  induction st with
  | nil =>
    simp [kvSet, kvGet, List.take_of_length_le hk, List.take_of_length_le hv]
  | cons e rest ih =>
    by_cases h : e.1 = k
    · simp [kvSet, kvGet, h, List.take_of_length_le hv]
    · simp [kvSet, kvGet, h, ih]

theorem kvGet_kvSet_ne (st : Store) (k k' v : Str)
    (hk : k.length ≤ 255) (hne : k ≠ k') :
    kvGet (kvSet st k v) k' = kvGet st k' := by
  induction st with
  | nil => simp [kvSet, kvGet, List.take_of_length_le hk, hne]
  | cons e rest ih =>
    by_cases h : e.1 = k
    · simp [kvSet, kvGet, h, hne, hne.symm]
    · by_cases h' : e.1 = k'
      · simp [kvSet, kvGet, h, h', hne, hne.symm]
      · simp [kvSet, kvGet, h, h', ih]

theorem kvGet_eq_none_of_not_mem (st : Store) (k : Str)
    (h : k ∉ st.map Prod.fst) : kvGet st k = none := by
  induction st with
  | nil => simp [kvGet]
  | cons e rest ih =>
    rw [List.map_cons, List.mem_cons, not_or] at h
    rw [kvGet, if_neg (fun hc => h.1 hc.symm)]
    exact ih h.2

theorem kvGet_kvDelete_self (st : Store) (k : Str) (hnd : NodupKeys st) :
    kvGet (kvDelete st k) k = none := by
  induction st with
  | nil => simp [kvDelete, kvGet]
  | cons e rest ih =>
    rw [NodupKeys, List.map_cons, List.nodup_cons] at hnd
    by_cases h : e.1 = k
    · rw [kvDelete, if_pos h]
      exact kvGet_eq_none_of_not_mem rest k (h ▸ hnd.1)
    · simp [kvDelete, kvGet, h, ih hnd.2]

theorem kvGet_kvDelete_ne (st : Store) (k k' : Str) (hne : k ≠ k') :
    kvGet (kvDelete st k) k' = kvGet st k' := by
  induction st with
  | nil => simp [kvDelete]
  | cons e rest ih =>
    by_cases h : e.1 = k
    · simp [kvDelete, kvGet, h, hne, hne.symm]
    · by_cases h' : e.1 = k'
      · simp [kvDelete, kvGet, h, h', hne, hne.symm]
      · simp [kvDelete, kvGet, h, h', ih]

/-! ### Claim theorems -/

/-- C1: for every key `k` and value `v` within the 255-byte bound,
`Set(k, v)` on any store state followed by `Get(k)` yields `Found(v)`. -/
theorem set_then_get (st : Store) (k v : Str)
    (hk : k.length ≤ 255) (hv : v.length ≤ 255) :
    kvGet (kvSet st k v) k = some v :=
  kvGet_kvSet_self st k v hk hv

/-- C1 witness: a concrete set-then-get round trip. -/
theorem set_then_get_w :
    kvGet (kvSet [] "name".toList "Hong".toList) "name".toList
      = some "Hong".toList :=
  set_then_get [] _ _ (by decide) (by decide)

/-! ### Record counting, for the last-write-wins claim -/

/-- Number of records held for key `k`. -/
def recordCount (st : Store) (k : Str) : Nat :=
  st.countP (fun e => decide (e.1 = k))

theorem recordCount_nil (k : Str) : recordCount [] k = 0 := rfl

theorem recordCount_cons (e : Str × Str) (rest : Store) (k : Str) :
    recordCount (e :: rest) k
      = (if e.1 = k then 1 else 0) + recordCount rest k := by
  by_cases h : e.1 = k <;>
    simp [recordCount, List.countP_cons, h, Nat.add_comm]

theorem recordCount_le_one_of_nodup (st : Store) (k : Str)
    (hnd : NodupKeys st) : recordCount st k ≤ 1 := by
  induction st with
  | nil => simp [recordCount]
  | cons e rest ih =>
    rw [NodupKeys, List.map_cons, List.nodup_cons] at hnd
    rw [recordCount_cons]
    by_cases h : e.1 = k
    · have : recordCount rest k = 0 := by
        rw [recordCount, List.countP_eq_zero]
        intro f hf
        simp only [decide_eq_true_eq]
        intro hc
        exact hnd.1 (h ▸ hc ▸ List.mem_map_of_mem Prod.fst hf)
      simp [h, this]
    · simpa [h] using ih hnd.2

theorem recordCount_kvSet (st : Store) (k v : Str) (hk : k.length ≤ 255)
    (hle : recordCount st k ≤ 1) : recordCount (kvSet st k v) k = 1 := by
  induction st with
  | nil => simp [kvSet, recordCount, List.take_of_length_le hk]
  | cons e rest ih =>
    by_cases h : e.1 = k
    · rw [kvSet, if_pos h, recordCount_cons, if_pos h]
      rw [recordCount_cons, if_pos h] at hle
      omega
    · rw [recordCount_cons, if_neg h] at hle
      rw [kvSet, if_neg h, recordCount_cons, if_neg h]
      rw [ih (by omega)]

theorem kvGet_mem_value (st : Store) (k v : Str) (h : kvGet st k = some v) :
    ∃ e ∈ st, e.2 = v := by
  induction st with
  | nil => simp [kvGet] at h
  | cons e rest ih =>
    by_cases hk : e.1 = k
    · rw [kvGet, if_pos hk, Option.some_inj] at h
      exact ⟨e, List.mem_cons_self e rest, h⟩
    · rw [kvGet, if_neg hk] at h
      obtain ⟨f, hf, hfv⟩ := ih h
      exact ⟨f, List.mem_cons_of_mem e hf, hfv⟩

/-- C5: `Set(k, v1)` then `Set(k, v2)` then `Get(k)` yields `Found(v2)`, and
the resulting store holds exactly one record for `k` (last write wins), for
every store state satisfying the at-most-one-record-per-key invariant and
every key and final value within the 255-byte bound. -/
theorem set_set_get_last_write_wins (st : Store) (k v1 v2 : Str)
    (hnd : NodupKeys st) (hk : k.length ≤ 255) (hv : v2.length ≤ 255) :
    kvGet (kvSet (kvSet st k v1) k v2) k = some v2 ∧
    recordCount (kvSet (kvSet st k v1) k v2) k = 1 := by
  refine ⟨kvGet_kvSet_self _ k v2 hk hv, ?_⟩
  have h1 : recordCount (kvSet st k v1) k = 1 :=
    recordCount_kvSet st k v1 hk (recordCount_le_one_of_nodup st k hnd)
  exact recordCount_kvSet _ k v2 hk (by omega)

/-- C5 witness: overwriting a present key on a concrete store. -/
theorem set_set_get_last_write_wins_w :
    kvGet (kvSet (kvSet [("x".toList, "0".toList)] "k".toList "a".toList)
        "k".toList "b".toList) "k".toList = some "b".toList ∧
    recordCount (kvSet (kvSet [("x".toList, "0".toList)] "k".toList
        "a".toList) "k".toList "b".toList) "k".toList = 1 :=
  set_set_get_last_write_wins [("x".toList, "0".toList)] "k".toList
    "a".toList "b".toList (by unfold NodupKeys; decide) (by decide) (by decide)

/-- C6: `Delete(k)` yields the `OK` response for every store state and key,
and on a store with at most one record per key a subsequent `Get(k)` yields
`NotFound`, whether or not `k` was present. -/
theorem delete_then_get (st : Store) (k : Str) (hnd : NodupKeys st) :
    (applyCmd st (.del k)).2 = okResp ∧
    kvGet (applyCmd st (.del k)).1 k = none :=
  ⟨rfl, kvGet_kvDelete_self st k hnd⟩

/-- C6 witness: deleting a present key from a concrete store. -/
theorem delete_then_get_w :
    (applyCmd [("k".toList, "v".toList)] (.del "k".toList)).2 = okResp ∧
    kvGet (applyCmd [("k".toList, "v".toList)] (.del "k".toList)).1
      "k".toList = none :=
  delete_then_get [("k".toList, "v".toList)] "k".toList (by unfold NodupKeys; decide)

/-- C7: `Get(k)` never mutates the store, and (on stores whose values fit the
response buffer, as every reachable store does) its only outcomes are the
found value and `NOT_FOUND`. -/
theorem get_read_only (st : Store) (k : Str)
    (hb : ∀ e ∈ st, e.2.length ≤ 1023) :
    (applyCmd st (.get k)).1 = st ∧
    ((kvGet st k = none ∧ (applyCmd st (.get k)).2 = notFoundResp) ∨
     (∃ v, kvGet st k = some v ∧ (applyCmd st (.get k)).2 = v)) := by
  refine ⟨rfl, ?_⟩
  cases hv : kvGet st k with
  | none => exact Or.inl ⟨rfl, by simp [applyCmd, hv]⟩
  | some v =>
    refine Or.inr ⟨v, rfl, ?_⟩
    obtain ⟨e, he, hev⟩ := kvGet_mem_value st k v hv
    have : v.take 1023 = v := List.take_of_length_le (hev ▸ hb e he)
    simp [applyCmd, hv, this]

/-- C7 witness: a concrete lookup of a present key mutates nothing. -/
theorem get_read_only_w :
    (applyCmd [("k".toList, "v".toList)] (.get "k".toList)).1
        = [("k".toList, "v".toList)] ∧
    ((kvGet [("k".toList, "v".toList)] "k".toList = none ∧
      (applyCmd [("k".toList, "v".toList)] (.get "k".toList)).2
        = notFoundResp) ∨
     (∃ v, kvGet [("k".toList, "v".toList)] "k".toList = some v ∧
      (applyCmd [("k".toList, "v".toList)] (.get "k".toList)).2 = v)) :=
  get_read_only [("k".toList, "v".toList)] "k".toList (by decide)

/-- C9: for distinct keys `k ≠ k1` (with `k` within the 255-byte key bound),
`Set(k, v)` and `Delete(k)` leave the mapping at `k1` unchanged. -/
theorem set_delete_frame (st : Store) (k k1 v : Str)
    (hk : k.length ≤ 255) (hne : k ≠ k1) :
    kvGet (kvSet st k v) k1 = kvGet st k1 ∧
    kvGet (kvDelete st k) k1 = kvGet st k1 :=
  ⟨kvGet_kvSet_ne st k k1 v hk hne, kvGet_kvDelete_ne st k k1 hne⟩

/-! ### Scanner lemmas -/

theorem scanTokens_cons (w : Nat) (ws : List Nat) (s : List Char) :
    scanTokens (w :: ws) s =
      if ((s.dropWhile isWhite).takeWhile (fun c => !isWhite c)).take w = []
      then []
      else ((s.dropWhile isWhite).takeWhile (fun c => !isWhite c)).take w ::
        scanTokens ws ((s.dropWhile isWhite).drop
          (((s.dropWhile isWhite).takeWhile (fun c => !isWhite c)).take
            w).length) := rfl

theorem takeWhile_dropWhile_eq_nil (p : Char → Bool) (l : List Char) :
    (l.dropWhile p).takeWhile p = [] := by
  induction l with
  | nil => rfl
  | cons x xs ih =>
    by_cases h : p x
    · rw [List.dropWhile_cons_of_pos h]
      exact ih
    · rw [List.dropWhile_cons_of_neg h, List.takeWhile_cons_of_neg h]

/-- Each token produced by the scanner is bounded by its field width. -/
theorem scanTokens_token_le (ws : List Nat) :
    ∀ (s : List Char) (i : Nat) (t : Str) (w : Nat),
      (scanTokens ws s)[i]? = some t → ws[i]? = some w → t.length ≤ w := by
  induction ws with
  | nil =>
    intro s i t w ht _
    simp [scanTokens] at ht
  | cons w0 ws ih =>
    intro s i t w ht hw
    rw [scanTokens_cons] at ht
    by_cases h :
        ((s.dropWhile isWhite).takeWhile (fun c => !isWhite c)).take w0 = []
    · rw [if_pos h] at ht
      simp at ht
    · rw [if_neg h] at ht
      cases i with
      | zero =>
        rw [List.getElem?_cons_zero, Option.some_inj] at ht hw
        rw [← ht, ← hw]
        exact (List.length_take _ _).trans_le (Nat.min_le_left _ _)
      | succ i =>
        rw [List.getElem?_cons_succ] at ht hw
        exact ih _ i t w ht hw

/-- When the first non-whitespace run of the line is longer than the 31-byte
command field, the command token is the run's first 31 bytes and the key
token starts with the run's excess: the excess is rescanned, not dropped. -/
theorem scanTokens_spill (s : List Char)
    (h : 31 < ((s.dropWhile isWhite).takeWhile (fun c => !isWhite c)).length) :
    (scanTokens widths s)[0]? =
      some (((s.dropWhile isWhite).takeWhile (fun c => !isWhite c)).take 31) ∧
    (scanTokens widths s)[1]? =
      some ((((s.dropWhile isWhite).takeWhile
        (fun c => !isWhite c)).drop 31).take 255) := by
  set r0 := s.dropWhile isWhite with hr0
  set run := r0.takeWhile (fun c => !isWhite c) with hrun
  have hlen : (run.take 31).length = 31 := by
    rw [List.length_take]
    omega
  have htok : run.take 31 ≠ [] := by
    intro hc
    rw [hc] at hlen
    simp at hlen
  have hsplit : r0 = run ++ r0.dropWhile (fun c => !isWhite c) := by
    rw [hrun]
    exact (List.takeWhile_append_dropWhile _ _).symm
  have hdrop : r0.drop 31
      = run.drop 31 ++ r0.dropWhile (fun c => !isWhite c) := by
    conv_lhs => rw [hsplit]
    exact List.drop_append_of_le_length (by omega)
  have hrun_mem : ∀ c ∈ run.drop 31, (!isWhite c) = true := by
    intro c hc
    have h1 : c ∈ run := List.mem_of_mem_drop hc
    rw [hrun] at h1
    have h2 := List.mem_takeWhile_imp h1
    simpa using h2
  have hne2 : run.drop 31 ≠ [] := by
    intro hc
    have h1 : (run.drop 31).length = 0 := by
      rw [hc]
      rfl
    rw [List.length_drop] at h1
    omega
  have hdw : (run.drop 31 ++ r0.dropWhile
      (fun c => !isWhite c)).dropWhile isWhite
      = run.drop 31 ++ r0.dropWhile (fun c => !isWhite c) := by
    cases he : run.drop 31 with
    | nil => exact absurd he hne2
    | cons x xs =>
      have hx : isWhite x = false := by
        have := hrun_mem x (he ▸ List.mem_cons_self x xs)
        simpa using this
      rw [List.cons_append, List.dropWhile_cons_of_neg (by simp [hx])]
  have htw : (run.drop 31 ++ r0.dropWhile
      (fun c => !isWhite c)).takeWhile (fun c => !isWhite c)
      = run.drop 31 := by
    rw [List.takeWhile_append_of_pos hrun_mem,
      takeWhile_dropWhile_eq_nil, List.append_nil]
  have htok2 : (run.drop 31).take 255 ≠ [] := by
    intro hc
    have h1 : ((run.drop 31).take 255).length = 0 := by
      rw [hc]
      rfl
    rw [List.length_take, List.length_drop] at h1
    omega
  have hstep1 : scanTokens widths s
      = run.take 31 :: scanTokens [255, 255] (r0.drop 31) := by
    rw [show widths = [31, 255, 255] from rfl, scanTokens_cons, ← hr0, ← hrun,
      if_neg htok, hlen]
  have hstep2 : scanTokens [255, 255] (r0.drop 31)
      = (run.drop 31).take 255 :: scanTokens [255]
        ((run.drop 31 ++ r0.dropWhile (fun c => !isWhite c)).drop
          ((run.drop 31).take 255).length) := by
    rw [scanTokens_cons, hdrop, hdw, htw, if_neg htok2]
  rw [hstep1, hstep2]
  exact ⟨by simp, by simp⟩

/-- C2 (amended): every token produced by the request scanner is bounded by
its `sscanf` field width — 31 bytes for the command name, 255 bytes for key
and value — and when the first non-whitespace run exceeds the 31-byte command
bound, the command token is the run's first 31 bytes while the excess is
rescanned as the start of the key token instead of being dropped. -/
theorem scan_token_truncation (s : List Char) :
    (∀ (i : Nat) (t : Str) (w : Nat),
      (scanTokens widths s)[i]? = some t → widths[i]? = some w →
        t.length ≤ w) ∧
    (31 < ((s.dropWhile isWhite).takeWhile (fun c => !isWhite c)).length →
      (scanTokens widths s)[0]? =
        some (((s.dropWhile isWhite).takeWhile
          (fun c => !isWhite c)).take 31) ∧
      (scanTokens widths s)[1]? =
        some ((((s.dropWhile isWhite).takeWhile
          (fun c => !isWhite c)).drop 31).take 255)) :=
  ⟨scanTokens_token_le widths s, scanTokens_spill s⟩

/-- C2 witness: on a line that is a single 40-byte run, the command token is
cut at 31 bytes and the 9 excess bytes become the key token. -/
theorem scan_token_truncation_w :
    (List.replicate 31 'B').length ≤ 31 ∧
    (scanTokens widths (List.replicate 40 'B'))[1]?
      = some (List.replicate 9 'B') := by
  constructor
  · exact (scan_token_truncation (List.replicate 40 'B')).1 0
      (List.replicate 31 'B') 31 (by decide) (by decide)
  · have h := ((scan_token_truncation (List.replicate 40 'B')).2
      (by decide)).2
    have e : ((((List.replicate 40 'B').dropWhile isWhite).takeWhile
        (fun c => !isWhite c)).drop 31).take 255 = List.replicate 9 'B' := by
      decide
    rw [h, e]

/-- C2 counterexample: a single whitespace-free token of 32 bytes — well
within the claimed 255-byte bound, so the claim says it is decoded intact as
the sole token — is instead cut at 31 bytes, the 32nd byte becoming a second
token: the command field width is 31, not 255, and the excess is not
dropped. -/
theorem scan_token_truncation_cex :
    (List.replicate 32 'A').length ≤ 255 ∧
    (∀ c ∈ List.replicate 32 'A', isWhite c = false) ∧
    scanTokens widths (List.replicate 32 'A')
      = [List.replicate 31 'A', ['A']] ∧
    scanTokens widths (List.replicate 32 'A') ≠ [List.replicate 32 'A'] := by
  refine ⟨by decide, by decide, by decide, by decide⟩

/-! ### Invalid requests -/

/-- A token list on which no guard of the dispatch chain can fire: no tokens
at all, or an unrecognized command name, or `SET` with fewer than 3 tokens,
or `GET`/`DELETE` with fewer than 2 tokens. -/
def invalidTokens : List Str → Bool
  | [] => true
  | c :: rest =>
    (decide (c ≠ "SET".toList) || decide (rest.length < 2)) &&
    (decide (c ≠ "GET".toList) || decide (rest.length < 1)) &&
    (decide (c ≠ "DELETE".toList) || decide (rest.length < 1))

theorem decode_eq_none_of_invalid (ts : List Str)
    (h : invalidTokens ts = true) : decode ts = none := by
  match ts with
  | [] => rfl
  | [c] => rfl
  | [c, k] =>
    simp only [invalidTokens, Bool.and_eq_true, Bool.or_eq_true,
      decide_eq_true_eq, List.length_cons, List.length_nil] at h
    have hg : c ≠ "GET".toList := h.1.2.resolve_right (by omega)
    have hd : c ≠ "DELETE".toList := h.2.resolve_right (by omega)
    show (if c = "GET".toList then some (Command.get k)
      else if c = "DELETE".toList then some (Command.del k)
      else none) = none
    rw [if_neg hg, if_neg hd]
  | c :: k :: v :: rest =>
    simp only [invalidTokens, Bool.and_eq_true, Bool.or_eq_true,
      decide_eq_true_eq, List.length_cons] at h
    have hs : c ≠ "SET".toList := h.1.1.resolve_right (by omega)
    have hg : c ≠ "GET".toList := h.1.2.resolve_right (by omega)
    have hd : c ≠ "DELETE".toList := h.2.resolve_right (by omega)
    show (if c = "SET".toList then some (Command.set k v)
      else if c = "GET".toList then some (Command.get k)
      else if c = "DELETE".toList then some (Command.del k)
      else none) = none
    rw [if_neg hs, if_neg hg, if_neg hd]

/-- C3: a request whose token list satisfies none of the dispatch guards
(no tokens, an unrecognized command name, `SET` with fewer than 3 tokens, or
`GET`/`DELETE` with fewer than 2 tokens) is answered with `ERROR` and leaves
the store mapping exactly as it was. -/
theorem invalid_request_error (st : Store) (input : Str)
    (h : invalidTokens (scanTokens widths input) = true) :
    handleRequest st input = (st, errorResp) := by
  rw [handleRequest, decode_eq_none_of_invalid _ h]

/-- C3 witness: the spec's own examples, `"SET onlykey"` and `"BOGUS"`, on a
concrete non-empty store. -/
theorem invalid_request_error_w :
    invalidTokens (scanTokens widths "SET onlykey".toList) = true ∧
    handleRequest [("k".toList, "v".toList)] "SET onlykey".toList
      = ([("k".toList, "v".toList)], errorResp) ∧
    handleRequest [("k".toList, "v".toList)] "BOGUS".toList
      = ([("k".toList, "v".toList)], errorResp) :=
  ⟨by decide,
   invalid_request_error [("k".toList, "v".toList)] _ (by decide),
   invalid_request_error [("k".toList, "v".toList)] _ (by decide)⟩

/-- C10: a non-empty request line consisting only of whitespace (so `sscanf`
converts no token at all and returns `EOF`) is answered with `ERROR`, not
with silence, and the store is left unchanged. -/
theorem whitespace_only_line (st : Store) (input : Str)
    (_hne : input ≠ []) (hw : ∀ c ∈ input, isWhite c = true) :
    handleRequest st input = (st, errorResp) := by
  have h0 : input.dropWhile isWhite = [] :=
    List.dropWhile_eq_nil_iff.mpr hw
  have hs : scanTokens widths input = [] := by
    rw [show widths = [31, 255, 255] from rfl, scanTokens_cons, h0]
    simp
  rw [handleRequest, hs]
  rfl

/-- C10 witness: a line of three whitespace characters on a concrete
non-empty store. -/
theorem whitespace_only_line_w :
    " \t ".toList ≠ ([] : List Char) ∧
    handleRequest [("k".toList, "v".toList)] " \t ".toList
      = ([("k".toList, "v".toList)], errorResp) :=
  ⟨by decide,
   whitespace_only_line [("k".toList, "v".toList)] _ (by decide) (by decide)⟩

/-! ### The store invariant -/

theorem kvSet_map_fst (st : Store) (k v : Str) (hk : k.length ≤ 255) :
    (kvSet st k v).map Prod.fst =
      if k ∈ st.map Prod.fst then st.map Prod.fst
      else st.map Prod.fst ++ [k] := by
  induction st with
  | nil => simp [kvSet, List.take_of_length_le hk]
  | cons e rest ih =>
    by_cases h : e.1 = k
    · simp [kvSet, h]
    · rw [kvSet, if_neg h, List.map_cons, List.map_cons, ih]
      by_cases hm : k ∈ rest.map Prod.fst
      · rw [if_pos hm, if_pos (List.mem_cons_of_mem _ hm)]
      · have hnotin : k ∉ (e.1 :: rest.map Prod.fst) := by
          intro hc
          rcases List.mem_cons.mp hc with hc1 | hc1
          · exact h hc1.symm
          · exact hm hc1
        rw [if_neg hm, if_neg hnotin, List.cons_append]

theorem kvSet_nodupKeys (st : Store) (k v : Str) (hk : k.length ≤ 255)
    (hnd : NodupKeys st) : NodupKeys (kvSet st k v) := by
  rw [NodupKeys, kvSet_map_fst st k v hk]
  by_cases hm : k ∈ st.map Prod.fst
  · rw [if_pos hm]
    exact hnd
  · rw [if_neg hm]
    simp only [List.nodup_append, List.nodup_singleton, true_and]
    refine ⟨hnd, ?_⟩
    intro a ha hb
    rw [List.mem_singleton] at hb
    exact hm (hb ▸ ha)

theorem kvSet_bounded (st : Store) (k v : Str) (hb : BoundedEntries st) :
    BoundedEntries (kvSet st k v) := by
  induction st with
  | nil =>
    intro e he
    rw [kvSet] at he
    have he2 := List.mem_singleton.mp he
    subst he2
    exact ⟨List.length_take_le 255 k, List.length_take_le 255 v⟩
  | cons f rest ih =>
    intro e he
    rw [kvSet] at he
    by_cases h : f.1 = k
    · rw [if_pos h] at he
      rcases List.mem_cons.mp he with heq | hm
      · rw [heq]
        exact ⟨(hb f (List.mem_cons_self f rest)).1, List.length_take_le 255 v⟩
      · exact hb e (List.mem_cons_of_mem f hm)
    · rw [if_neg h] at he
      rcases List.mem_cons.mp he with heq | hm
      · rw [heq]
        exact hb f (List.mem_cons_self f rest)
      · exact ih (fun e2 he2 => hb e2 (List.mem_cons_of_mem f he2)) e hm

theorem kvDelete_sublist (st : Store) (k : Str) :
    (kvDelete st k).Sublist st := by
  induction st with
  | nil => simp [kvDelete]
  | cons e rest ih =>
    by_cases h : e.1 = k
    · rw [kvDelete, if_pos h]
      exact List.sublist_cons_self e rest
    · rw [kvDelete, if_neg h]
      exact ih.cons₂ e

theorem kvDelete_nodupKeys (st : Store) (k : Str) (hnd : NodupKeys st) :
    NodupKeys (kvDelete st k) :=
  hnd.sublist ((kvDelete_sublist st k).map Prod.fst)

theorem kvDelete_bounded (st : Store) (k : Str) (hb : BoundedEntries st) :
    BoundedEntries (kvDelete st k) :=
  fun e he => hb e ((kvDelete_sublist st k).subset he)

/-- A decoded SET command's key is the second scanned token. -/
theorem decode_set_key (ts : List Str) (k v : Str)
    (h : decode ts = some (.set k v)) : ts[1]? = some k := by
  match ts with
  | [] => exact Option.noConfusion h
  | [c] => exact Option.noConfusion h
  | [c, k2] =>
    rw [show decode [c, k2]
      = (if c = "GET".toList then some (Command.get k2)
        else if c = "DELETE".toList then some (Command.del k2)
        else none) from rfl] at h
    split_ifs at h <;> simp_all
  | c :: k2 :: v2 :: rest =>
    rw [show decode (c :: k2 :: v2 :: rest)
      = (if c = "SET".toList then some (Command.set k2 v2)
        else if c = "GET".toList then some (Command.get k2)
        else if c = "DELETE".toList then some (Command.del k2)
        else none) from rfl] at h
    split_ifs at h <;> simp_all

theorem handleRequest_invariant (st : Store) (input : Str)
    (hinv : Invariant st) : Invariant (handleRequest st input).1 := by
  rw [handleRequest]
  cases hd : decode (scanTokens widths input) with
  | none => exact hinv
  | some c =>
    cases c with
    | set k v =>
      have hk1 : (scanTokens widths input)[1]? = some k :=
        decode_set_key _ k v hd
      have hk : k.length ≤ 255 :=
        scanTokens_token_le widths input 1 k 255 hk1 rfl
      exact ⟨kvSet_nodupKeys st k v hk hinv.1, kvSet_bounded st k v hinv.2⟩
    | get k => exact hinv
    | del k =>
      exact ⟨kvDelete_nodupKeys st k hinv.1, kvDelete_bounded st k hinv.2⟩

theorem processAll_invariant (reqs : List Str) :
    ∀ st : Store, Invariant st → Invariant (processAll reqs st) := by
  induction reqs with
  | nil => exact fun st h => h
  | cons r rs ih =>
    intro st h
    exact ih _ (handleRequest_invariant st r h)

/-- C4: starting from the empty store, after every sequence of requests
(sets, gets, deletes, or anything else a client can send) the mapping holds
at most one record per key and every stored key and value is at most 255
bytes long. -/
theorem store_invariant_holds (reqs : List Str) :
    Invariant (processAll reqs []) :=
  processAll_invariant reqs []
    ⟨List.nodup_nil, fun e he => absurd he (List.not_mem_nil e)⟩

/-- C9 witness: a concrete set and delete of `k` leave `k1` untouched. -/
theorem set_delete_frame_w :
    kvGet (kvSet [("k1".toList, "w".toList)] "k".toList "v".toList)
        "k1".toList = kvGet [("k1".toList, "w".toList)] "k1".toList ∧
    kvGet (kvDelete [("k1".toList, "w".toList)] "k".toList) "k1".toList
      = kvGet [("k1".toList, "w".toList)] "k1".toList :=
  set_delete_frame [("k1".toList, "w".toList)] "k".toList "k1".toList
    "v".toList (by decide) (by decide)

